import Mathlib

/-!
Verification of the conformance result-tree model of the upb-zig repository.

The Python sources model a result tree as a `JSONish = dict[str, bool | JSONish]`:
a node is either a boolean leaf (pass/fail) or a string-keyed mapping to child
nodes.  We embed that shape as a pair of mutual inductives `Node`/`Dict`, where
`Dict` is an insertion-ordered association list with the update/append behaviour
of a Python `dict` (updating an existing key keeps its position, a new key is
appended at the end).

Python functions that can raise are embedded as `Except PErr` values; the
`PErr` constructors name the exception raised at each raise-site of the source.
Mutation of the tree (the sources mutate dicts in place) is embedded by
returning the updated tree; a call that raises leaves the caller's tree as it
was, which in the sources, too, is the case for every modelled function: each
performs its single store only after all checks have passed.

Test identifiers enter every source function as a string that is immediately
split on `"."`; we embed each identifier as its list of dot-separated segments
(`parts = test.split(".")` in the sources), which is nonempty for every input
string and on which all the tree logic operates.
-/

namespace UpbZig

/-- Python exceptions raised by the modelled functions, one constructor per
kind of raise-site in the sources. -/
inductive PErr where
  /-- `parts[-1]` on an empty list of segments. -/
  | indexError : PErr
  /-- a failed `assert` statement. -/
  | assertionError : PErr
  /-- an explicit `raise TypeError(...)`. -/
  | typeError : PErr
  /-- `KeyError`: a missing intermediate path component (the spec's
  `UnknownCategory`), raised explicitly or by a failing `node[part]` access. -/
  | keyErrorCategory : PErr
  /-- `KeyError`: a missing final leaf (the spec's `UnknownTest`). -/
  | keyErrorTest : PErr
  /-- the explicit `KeyError` in `get_subtree_by_path` when a walked node is
  not a dict. -/
  | keyErrorNonDict : PErr
  /-- `ZeroDivisionError` from dividing by a zero total. -/
  | zeroDivisionError : PErr
deriving DecidableEq, Repr

mutual
/-- a `JSONish` value of the sources: either a boolean leaf or a mapping. -/
inductive Node where
  | leaf : Bool → Node
  | dict : Dict → Node
deriving DecidableEq, Repr
/-- a Python `dict[str, bool | JSONish]` as an insertion-ordered association
list with unique keys. -/
inductive Dict where
  | nil : Dict
  | cons : String → Node → Dict → Dict
deriving DecidableEq, Repr
end

/-- Python `d[key]` / `key in d` read access: the value stored at `key`. -/
def Dict.find : Dict → String → Option Node
  | .nil, _ => none
  | .cons k v rest, key => if k = key then some v else rest.find key

/-- Python `d[key] = v` store: replace in place if the key exists (a Python
dict keeps the key's position), otherwise append the new key at the end. -/
def Dict.set : Dict → String → Node → Dict
  | .nil, key, v => .cons key v .nil
  | .cons k w rest, key, v =>
      if k = key then .cons k v rest else .cons k w (rest.set key v)

namespace TestResults

/-!
The functions below are defined, with identical bodies, in both
`src/conformance/test_results_parser.py` and
`src/conformance/all_fail_testee/test_results_parser.py`; the single point of
divergence between the two files, `set_test_result_existing`, is embedded twice
further down (namespaces `AllFail` and `Main`).
-/

/-- the soft insert `set_test_result(tree, test, result)` (and `add_path` of
`tests_parser.py`): walks `parts[:-1]`, creating an interior mapping at each
absent step via `node.setdefault(key, {})`, asserting at every step (and once
more before the final store) that the current node is a dict, then stores
`node[parts[-1]] = result`.  Descending into an existing boolean leaf fails the
assert; empty `parts` makes `parts[-1]` raise `IndexError`.  The `setdefault`
chain never fails once a fresh `{}` has been created, so a raising call has
performed no store, and the embedding's error result models the unchanged
tree. -/
def set_test_result : Dict → List String → Bool → Except PErr Dict
  | _, [], _ => .error .indexError
  | d, [last], v => .ok (d.set last (.leaf v))
  | d, key :: rest, v =>
      match d.find key with
      | none =>
          match set_test_result .nil rest v with
          | .error e => .error e
          | .ok sub => .ok (d.set key (.dict sub))
      | some (.dict sub) =>
          match set_test_result sub rest v with
          | .error e => .error e
          | .ok sub' => .ok (d.set key (.dict sub'))
      | some (.leaf _) => .error .assertionError

mutual
/-- `count_tests(tree)`: recursively sums 1 per boolean leaf.  The `case _:
raise ValueError("unreachable")` branch of the source cannot arise in the
typed embedding, whose nodes are exactly dicts and booleans. -/
def count_tests : Node → Nat
  | .leaf _ => 1
  | .dict d => count_testsD d
/-- `count_tests` summed over the values of a dict, in order. -/
def count_testsD : Dict → Nat
  | .nil => 0
  | .cons _ v rest => count_tests v + count_testsD rest
end

mutual
/-- `count_passing_tests(tree)`: as `count_tests` but a leaf counts
`int(tree)`, i.e. 1 exactly when it is `True`. -/
def count_passing_tests : Node → Nat
  | .leaf b => if b then 1 else 0
  | .dict d => count_passing_testsD d
/-- `count_passing_tests` summed over the values of a dict, in order. -/
def count_passing_testsD : Dict → Nat
  | .nil => 0
  | .cons _ v rest => count_passing_tests v + count_passing_testsD rest
end

/-- `all_tests_as_dict_from_all_fails`, after `pull_out_failing_tests` (string
glue extracting the identifier lines) has produced the listing: starting from
`{}`, soft-insert every identifier with result `True`, in listing order.  This
is the loop body; the top-level entry point is below. -/
def insert_all : Dict → List (List String) → Except PErr Dict
  | d, [] => .ok d
  | d, p :: ps =>
      match set_test_result d p true with
      | .error e => .error e
      | .ok d' => insert_all d' ps

/-- `all_tests_as_dict_from_all_fails(as_str)` with the extracted listing
already split into segment lists: fold the soft insert with `True` over the
listing, starting from the empty tree. -/
def all_tests_as_dict_from_all_fails (paths : List (List String)) : Except PErr Dict :=
  insert_all .nil paths

namespace AllFail

/-- `set_test_result_existing` of
`src/conformance/all_fail_testee/test_results_parser.py` (lines 76-109), the
variant whose checks inspect the walked node: walk `parts[:-1]` requiring the
current node to be a dict (`TypeError` otherwise) and the key to be present
(`KeyError` otherwise); at the final segment require the current node to be a
dict (`TypeError`) and the leaf key to be present (`KeyError`), then store
`node[leaf] = result`.  The single store happens after every check, so a
raising call leaves the tree unchanged. -/
def set_existing_node : Node → List String → Bool → Except PErr Node
  | _, [], _ => .error .indexError
  | .leaf _, _ :: _, _ => .error .typeError
  | .dict d, [last], v =>
      match d.find last with
      | none => .error .keyErrorTest
      | some _ => .ok (.dict (d.set last (.leaf v)))
  | .dict d, key :: rest, v =>
      match d.find key with
      | none => .error .keyErrorCategory
      | some sub =>
          match set_existing_node sub rest v with
          | .error e => .error e
          | .ok sub' => .ok (.dict (d.set key sub'))

/-- entry point of the `all_fail_testee` variant: the tree argument is a
`JSONish` dict. -/
def set_test_result_existing (d : Dict) (parts : List String) (v : Bool) :
    Except PErr Node :=
  set_existing_node (.dict d) parts v

end AllFail

namespace Main

/-- the intermediate-segment walk shared by both variants of
`set_test_result_existing` (the `for key in parts[:-1]` loop, which in both
files checks the walked node): require the current node to be a dict
(`TypeError` otherwise) and the key present (`KeyError` otherwise), and
descend. -/
def walk_existing : Node → List String → Except PErr Node
  | n, [] => .ok n
  | .leaf _, _ :: _ => .error .typeError
  | .dict d, key :: rest =>
      match d.find key with
      | none => .error .keyErrorCategory
      | some sub => walk_existing sub rest

/-- `set_test_result_existing` of `src/conformance/test_results_parser.py`
(lines 85-117): the walk over `parts[:-1]` checks the walked `tree` variable,
but the two final checks read `if not isinstance(test, dict)` and
`if leaf not in test` — `test` being the identifier *string*, which is never a
dict — so whenever the walk completes, the function unconditionally raises
`TypeError`, and the final store `tree[leaf] = result` is unreachable. -/
def set_test_result_existing (d : Dict) (parts : List String) (_ : Bool) :
    Except PErr Dict :=
  match parts with
  | [] => .error .indexError
  | _ :: _ =>
      match walk_existing (.dict d) parts.dropLast with
      | .error e => .error e
      | .ok _ => .error .typeError

end Main

/-- `get_subtree_by_path(report, path)`: starting at the report dict, for each
segment require the current node to be a dict (explicit `KeyError` otherwise),
look the segment up (a missing key raises `KeyError` from the `node[part]`
access), and — the `assert isinstance(node, dict)` that follows every descent —
fail if the value reached is a boolean leaf, including at the final segment. -/
def get_subtree_node : Node → List String → Except PErr Node
  | n, [] => .ok n
  | .leaf _, _ :: _ => .error .keyErrorNonDict
  | .dict d, part :: rest =>
      match d.find part with
      | none => .error .keyErrorCategory
      | some (.leaf _) => .error .assertionError
      | some (.dict d') => get_subtree_node (.dict d') rest

/-- entry point of `get_subtree_by_path`: the report argument is a dict. -/
def get_subtree_by_path (d : Dict) (path : List String) : Except PErr Node :=
  get_subtree_node (.dict d) path

/-- `SectionResult` of both `test_results_parser.py` files. -/
structure SectionResult where
  total : Nat
  passing : Nat
deriving DecidableEq, Repr

/-- `SectionResult.percent_passing`: `self.passing / self.total * 100`.
Python evaluates this in floating point; the embedding uses exact rationals,
for which the bounds proved below also hold of the IEEE evaluation since
rounding is monotone and the endpoint values 0 and 100 are representable.
Dividing by a zero total raises `ZeroDivisionError`. -/
def SectionResult.percent_passing (s : SectionResult) : Except PErr ℚ :=
  if s.total = 0 then .error .zeroDivisionError
  else .ok ((s.passing : ℚ) / (s.total : ℚ) * 100)

end TestResults

namespace ConformanceReport

/-!
Embeddings from `src/upb_zig/conformance/conformance_report.py`.  The badge
color helpers `_lerp`/`_bar_color` appear with identical bodies in
`src/conformance/test_results_parser.py` (lines 240-256).
-/

/-- Boolean list-prefix test, auxiliary to the substring test below. -/
def isPrefixB : List Char → List Char → Bool
  | [], _ => true
  | _ :: _, [] => false
  | a :: as, b :: bs => a == b && isPrefixB as bs

/-- Boolean contiguous-sublist test, auxiliary to the substring test below. -/
def isInfixB (sub : List Char) : List Char → Bool
  | [] => isPrefixB sub []
  | c :: rest => isPrefixB sub (c :: rest) || isInfixB sub rest

/-- the Python substring operator `sub in s` on strings. -/
def pyIn (sub s : String) : Bool :=
  isInfixB sub.toList s.toList

/-- `normalize_proto_version(version)` (lines 19-25): a string containing
`"Proto2"` maps to `"Proto2"`, otherwise one containing `"Proto3"` maps to
`"Proto3"`, and anything else passes through unchanged. -/
def normalize_proto_version (version : String) : String :=
  if pyIn "Proto2" version then "Proto2"
  else if pyIn "Proto3" version then "Proto3"
  else version

/-- `get_test_format(test_type)` (lines 28-35): a string containing `"Json"`
maps to `"JSON"`, otherwise one containing `"TextFormat"` maps to
`"Text format"`, and everything else (e.g. `"ProtobufInput"`) defaults to
`"Wire format"`. -/
def get_test_format (test_type : String) : String :=
  if pyIn "Json" test_type then "JSON"
  else if pyIn "TextFormat" test_type then "Text format"
  else "Wire format"

/-- `_lerp(a, b, t)`. -/
def _lerp (a b t : ℚ) : ℚ := a + (b - a) * t

/-- Python `int(x)`: truncation toward zero. -/
def pyInt (q : ℚ) : ℤ := if q < 0 then -(Int.floor (-q)) else Int.floor q

/-- the channel triple computed by `_bar_color(pct)` (lines 213-226): clamp
`pct` to `[0, 100]`, then interpolate each channel linearly, red to orange over
`[0, 60)` and orange to green over `[60, 100]`, truncating each channel to an
integer with `int(...)`.  The source formats the triple as a hex string
`f"#{r:02x}{g:02x}{b:02x}"`; the embedding keeps the channel values, on which
the formatting is injective string glue.  Python evaluates the arithmetic in
floating point; the embedding uses exact rationals. -/
def _bar_color (pct : ℚ) : ℤ × ℤ × ℤ :=
  let p := max 0 (min 100 pct)
  if p < 60 then
    (pyInt (_lerp 180 200 (p / 60)),
     pyInt (_lerp 60 140 (p / 60)),
     pyInt (_lerp 55 55 (p / 60)))
  else
    (pyInt (_lerp 200 68 ((p - 60) / 40)),
     pyInt (_lerp 140 148 ((p - 60) / 40)),
     pyInt (_lerp 55 68 ((p - 60) / 40)))

end ConformanceReport

/-!
Observer definitions used to state the claims.  They are measurement functions
over the embedded tree, not translations of further source code, except where
a doc comment says otherwise.
-/

mutual
/-- the root-to-leaf paths of a node together with the leaf values, enumerated
in dictionary order.  `count_tests` is the length of this list and
`count_passing_tests` counts its `true` entries (proved below). -/
def leavesN : Node → List (List String × Bool)
  | .leaf b => [([], b)]
  | .dict d => leavesD d
/-- the root-to-leaf paths of all entries of a dict, in order. -/
def leavesD : Dict → List (List String × Bool)
  | .nil => []
  | .cons k v rest =>
      (leavesN v).map (fun p => (k :: p.1, p.2)) ++ leavesD rest
end

/-- the sense in which claim C2 calls a path fully present in a tree: every
intermediate segment resolves to an interior mapping and the final segment is a
key of the mapping reached. -/
def path_present : Node → List String → Bool
  | _, [] => false
  | .leaf _, _ :: _ => false
  | .dict d, [last] => (d.find last).isSome
  | .dict d, key :: rest =>
      match d.find key with
      | none => false
      | some sub => path_present sub rest

/-- Spec-side counterpart of `get_subtree_by_path`, following the amended
claim C4's words: descend segment by segment, requiring every segment —
including the last — to resolve to an interior mapping, and return the mapping
reached; `none` otherwise. -/
def resolves_to_dict : Dict → List String → Option Dict
  | d, [] => some d
  | d, k :: rest =>
      match d.find k with
      | some (.dict d') => resolves_to_dict d' rest
      | _ => none

/-- the identifier listing of the spec's Scenario A, as segment lists. -/
def scenarioPaths : List (List String) :=
  [["Required", "Proto2", "ProtobufInput", "Foo"],
   ["Required", "Proto3", "JsonInput", "Bar"]]

/-- the canonical tree the baseline builder produces from `scenarioPaths`. -/
def scenarioTree : Dict :=
  .cons "Required"
    (.dict
      (.cons "Proto2"
        (.dict (.cons "ProtobufInput" (.dict (.cons "Foo" (.leaf true) .nil)) .nil))
        (.cons "Proto3"
          (.dict (.cons "JsonInput" (.dict (.cons "Bar" (.leaf true) .nil)) .nil))
          .nil)))
    .nil

/-- `scenarioTree` after the strict mutation of Scenario B has flipped the
leaf `Required.Proto2.ProtobufInput.Foo` to `false`. -/
def scenarioTreeFooFailed : Dict :=
  .cons "Required"
    (.dict
      (.cons "Proto2"
        (.dict (.cons "ProtobufInput" (.dict (.cons "Foo" (.leaf false) .nil)) .nil))
        (.cons "Proto3"
          (.dict (.cons "JsonInput" (.dict (.cons "Bar" (.leaf true) .nil)) .nil))
          .nil)))
    .nil

namespace Heap

/-!
Object-store model for claim C9.  The sources deep-copy the canonical tree
(`copy.deepcopy` in `gen_table` of `src/conformance/test_results_parser.py`
and `handle_input` of the `all_fail_testee` variant) and then mutate the copy
with `apply_fails_to_perfect_report`.  "The copy shares no substructure with
the original" is a statement about object identity, so this model makes the
CPython object graph explicit: a store is a list of allocated nodes, an
address is an index into it, and a dict maps keys to addresses of child
nodes.  `copy.deepcopy` of a tree-shaped graph (canonical trees are built
from freshly allocated `{}` dicts, so they have no internal sharing)
allocates a fresh isomorphic graph, modelled by `allocN`; the strict mutation
walks addresses and rebinds one dict entry, modelled by `hset_existing`
following `set_test_result_existing` of the `all_fail_testee` variant (the
rebound boolean is modelled as a freshly appended leaf node; Python's interned
`True`/`False` are immutable, so their identity is unobservable). -/

/-- an address in the object store: an index into the allocation list. -/
abbrev Addr := Nat

/-- a stored object: a boolean leaf or a dict whose values are addresses. -/
inductive HNode where
  | leaf : Bool → HNode
  | dict : List (String × Addr) → HNode
deriving DecidableEq, Repr

/-- the object store: address `i` holds the `i`-th allocated node. -/
abbrev Store := List HNode

/-- Python `key in es` / `es[key]` on a heap dict's entry list. -/
def lookupEntry : List (String × Addr) → String → Option Addr
  | [], _ => none
  | (k, a) :: rest, key => if k = key then some a else lookupEntry rest key

/-- Python `es[key] = a`: rebind in place, or append a new entry. -/
def setEntry : List (String × Addr) → String → Addr → List (String × Addr)
  | [], key, a => [(key, a)]
  | (k, b) :: rest, key, a =>
      if k = key then (k, a) :: rest else (k, b) :: setEntry rest key a

mutual
/-- allocate a fresh object graph holding the value `t`: children first, the
node itself last, every node at a fresh address.  This is what `copy.deepcopy`
produces for a tree-shaped object graph whose value is `t`. -/
def allocN : Store → Node → Store × Addr
  | σ, .leaf b => (σ ++ [.leaf b], σ.length)
  | σ, .dict d =>
      ((allocD σ d).1 ++ [.dict (allocD σ d).2], (allocD σ d).1.length)
/-- allocate the entries of a dict in order, returning the grown store and
the key-to-address entry list. -/
def allocD : Store → Dict → Store × List (String × Addr)
  | σ, .nil => (σ, [])
  | σ, .cons k v rest =>
      ((allocD (allocN σ v).1 rest).1,
       (k, (allocN σ v).2) :: (allocD (allocN σ v).1 rest).2)
end

/-- `set_test_result_existing` (the `all_fail_testee` variant) acting on the
object store: walk the addresses named by `parts[:-1]`, requiring a dict at
every step and the key to be present, then rebind the final dict entry to a
freshly allocated leaf.  The single store happens after every check. -/
def hset_existing : Store → Addr → List String → Bool → Except PErr Store
  | _, _, [], _ => .error .indexError
  | σ, a, [last], v =>
      match σ[a]? with
      | some (.dict es) =>
          match lookupEntry es last with
          | none => .error .keyErrorTest
          | some _ =>
              .ok ((σ.set a (.dict (setEntry es last σ.length))) ++ [.leaf v])
      | _ => .error .typeError
  | σ, a, key :: rest, v =>
      match σ[a]? with
      | some (.dict es) =>
          match lookupEntry es key with
          | none => .error .keyErrorCategory
          | some b => hset_existing σ b rest v
      | _ => .error .typeError

/-- `apply_fails_to_perfect_report` acting on the object store: set every
failing path to `False` through the strict mutation, in listing order. -/
def happly_fails : Store → Addr → List (List String) → Except PErr Store
  | σ, _, [] => .ok σ
  | σ, a, p :: ps =>
      match hset_existing σ a p false with
      | .error e => .error e
      | .ok σ' => happly_fails σ' a ps

mutual
/-- the object graph rooted at an address reads back as the given value. -/
inductive Reads (σ : Store) : Addr → Node → Prop
  | leaf {a : Addr} {b : Bool} : σ[a]? = some (.leaf b) → Reads σ a (.leaf b)
  | dict {a : Addr} {es : List (String × Addr)} {d : Dict} :
      σ[a]? = some (.dict es) → ReadsEntries σ es d → Reads σ a (.dict d)
/-- the entry list reads back as the given dict, in order. -/
inductive ReadsEntries (σ : Store) : List (String × Addr) → Dict → Prop
  | nil : ReadsEntries σ [] .nil
  | cons {k : String} {a : Addr} {es : List (String × Addr)} {v : Node} {d : Dict} :
      Reads σ a v → ReadsEntries σ es d →
      ReadsEntries σ ((k, a) :: es) (.cons k v d)
end

/-- address `b` is reachable from address `a`: the substructure relation of
the object graph. -/
inductive Reach (σ : Store) : Addr → Addr → Prop
  | refl (a : Addr) : Reach σ a a
  | step {a b c : Addr} {es : List (String × Addr)} {k : String} :
      Reach σ a b → σ[b]? = some (.dict es) → (k, c) ∈ es → Reach σ a c

/-- every dict entry stored below address `n` points below `n`: the region of
the original graph is self-contained. -/
def confinedBelow (σ : Store) (n : Nat) : Prop :=
  ∀ i es, i < n → σ[i]? = some (.dict es) → ∀ p ∈ es, p.2 < n

/-- every dict entry stored at address `n` or above points to `n` or above:
the freshly allocated region never points back into the original. -/
def closedAbove (σ : Store) (n : Nat) : Prop :=
  ∀ i es, n ≤ i → σ[i]? = some (.dict es) → ∀ p ∈ es, n ≤ p.2

end Heap

/-!
General lemmas about the dictionary operations and the leaf enumeration.
-/

open List

/-- structural induction over the spine of a dict, leaving the stored nodes
untouched: the mutual recursor specialised to a trivial node motive. -/
theorem Dict.spine_ind {motive : Dict → Prop} (nil : motive .nil)
    (cons : ∀ k v rest, motive rest → motive (.cons k v rest)) :
    ∀ d : Dict, motive d
  | .nil => nil
  | .cons k v rest => cons k v rest (Dict.spine_ind nil cons rest)

/-- storing at a key makes it readable. -/
theorem Dict.find_set_self (d : Dict) (k : String) (v : Node) :
    (d.set k v).find k = some v := by
  induction d using Dict.spine_ind with
  | nil => simp [Dict.set, Dict.find]
  | cons k' w rest ih =>
      by_cases h : k' = k
      · simp [Dict.set, h, Dict.find]
      · simp [Dict.set, h, Dict.find, ih]

/-- storing the same value twice is the same as storing it once. -/
theorem Dict.set_set_same (d : Dict) (k : String) (v : Node) :
    (d.set k v).set k v = d.set k v := by
  induction d using Dict.spine_ind with
  | nil => simp [Dict.set]
  | cons k' w rest ih => by_cases h : k' = k <;> simp [Dict.set, h, ih]

mutual
/-- `count_tests` is the number of leaves enumerated by `leavesN`. -/
theorem count_tests_eq_length : ∀ n : Node,
    TestResults.count_tests n = (leavesN n).length
  | .leaf b => by simp [TestResults.count_tests, leavesN]
  | .dict d => by
      rw [TestResults.count_tests, leavesN]; exact count_testsD_eq_length d
/-- `count_testsD` is the number of leaves enumerated by `leavesD`. -/
theorem count_testsD_eq_length : ∀ d : Dict,
    TestResults.count_testsD d = (leavesD d).length
  | .nil => by simp [TestResults.count_testsD, leavesD]
  | .cons k v rest => by
      rw [TestResults.count_testsD, leavesD]
      simp [count_tests_eq_length v, count_testsD_eq_length rest]
end

mutual
/-- `count_passing_tests` counts the `true` leaves enumerated by `leavesN`. -/
theorem count_passing_eq_countP : ∀ n : Node,
    TestResults.count_passing_tests n = (leavesN n).countP (fun p => p.2)
  | .leaf b => by cases b <;> rfl
  | .dict d => by
      rw [TestResults.count_passing_tests, leavesN]; exact count_passingD_eq_countP d
/-- `count_passing_testsD` counts the `true` leaves enumerated by `leavesD`. -/
theorem count_passingD_eq_countP : ∀ d : Dict,
    TestResults.count_passing_testsD d = (leavesD d).countP (fun p => p.2)
  | .nil => by simp [TestResults.count_passing_testsD, leavesD]
  | .cons k v rest => by
      rw [TestResults.count_passing_testsD, leavesD]
      rw [List.countP_append, List.countP_map]
      simp [count_passing_eq_countP v, count_passingD_eq_countP rest]
      rfl
end

/-- storing at an absent key appends its leaves at the end of the
enumeration. -/
theorem leavesD_set_of_find_none (d : Dict) (k : String) (n : Node)
    (h : d.find k = none) :
    leavesD (d.set k n) =
      leavesD d ++ (leavesN n).map (fun p => (k :: p.1, p.2)) := by
  induction d using Dict.spine_ind with
  | nil => simp [Dict.set, leavesD]
  | cons k' w rest ih =>
      rw [Dict.find] at h
      by_cases hk : k' = k
      · simp [hk] at h
      · rw [if_neg hk] at h
        simp [Dict.set, hk, leavesD, ih h]

/-- storing at a present key replaces its block of leaves in place in the
enumeration. -/
theorem leavesD_set_of_find_some (d : Dict) (k : String) (m n : Node)
    (h : d.find k = some m) :
    ∃ pre post,
      leavesD d = pre ++ (leavesN m).map (fun p => (k :: p.1, p.2)) ++ post ∧
      leavesD (d.set k n) =
        pre ++ (leavesN n).map (fun p => (k :: p.1, p.2)) ++ post := by
  induction d using Dict.spine_ind with
  | nil => simp [Dict.find] at h
  | cons k' w rest ih =>
      rw [Dict.find] at h
      by_cases hk : k' = k
      · rw [if_pos hk] at h
        subst hk
        cases h
        exact ⟨[], leavesD rest, by simp [leavesD], by simp [Dict.set, leavesD]⟩
      · rw [if_neg hk] at h
        obtain ⟨pre, post, h1, h2⟩ := ih h
        refine ⟨(leavesN w).map (fun p => (k' :: p.1, p.2)) ++ pre, post, ?_, ?_⟩
        · simp [leavesD, h1]
        · simp [Dict.set, hk, leavesD, h2]

/-- a leaf of the node stored at a key is a leaf of the dict, with the key
prepended to its path. -/
theorem mem_leavesD_of_find (d : Dict) (k : String) (m : Node)
    (h : d.find k = some m) {q : List String} {b : Bool}
    (hq : (q, b) ∈ leavesN m) : (k :: q, b) ∈ leavesD d := by
  obtain ⟨pre, post, h1, -⟩ := leavesD_set_of_find_some d k m m h
  rw [h1]
  simp only [List.mem_append]
  exact Or.inl (Or.inr (List.mem_map_of_mem _ hq))

/-- replacing the value at a present key exchanges its leaf count. -/
theorem count_testsD_set_of_find_some (d : Dict) (k : String) (m n : Node)
    (h : d.find k = some m) :
    TestResults.count_testsD (d.set k n) + TestResults.count_tests m =
      TestResults.count_testsD d + TestResults.count_tests n := by
  induction d using Dict.spine_ind with
  | nil => simp [Dict.find] at h
  | cons k' w rest ih =>
      rw [Dict.find] at h
      by_cases hk : k' = k
      · rw [if_pos hk] at h
        cases h
        simp [Dict.set, hk, TestResults.count_testsD]
        omega
      · rw [if_neg hk] at h
        simp only [Dict.set, if_neg hk, TestResults.count_testsD]
        have := ih h
        omega

/-!
Claim C5: idempotence of the soft insert.
-/

/-- C5: inserting the same `(path, true)` pair into a tree twice with the soft
insert `set_test_result` yields exactly the same tree as inserting it once:
given that the first insertion succeeded with result `d'`, repeating it on
`d'` succeeds and changes nothing. -/
theorem set_test_result_idempotent (parts : List String) (d d' : Dict)
    (h : TestResults.set_test_result d parts true = .ok d') :
    TestResults.set_test_result d' parts true = .ok d' := by
  induction parts generalizing d d' with
  | nil => simp [TestResults.set_test_result] at h
  | cons key rest ih =>
      cases rest with
      | nil =>
          simp only [TestResults.set_test_result, Except.ok.injEq] at h
          subst h
          rw [TestResults.set_test_result, Dict.set_set_same]
      | cons k2 r2 =>
          simp only [TestResults.set_test_result] at h
          cases hf : d.find key with
          | none =>
              simp only [hf] at h
              cases hs : TestResults.set_test_result .nil (k2 :: r2) true with
              | error e => simp [hs] at h
              | ok sub =>
                  simp only [hs, Except.ok.injEq] at h
                  subst h
                  simp only [TestResults.set_test_result, Dict.find_set_self,
                    ih _ _ hs, Dict.set_set_same]
          | some sub =>
              cases sub with
              | leaf b => simp [hf] at h
              | dict sub =>
                  simp only [hf] at h
                  cases hs : TestResults.set_test_result sub (k2 :: r2) true with
                  | error e => simp [hs] at h
                  | ok sub' =>
                      simp only [hs, Except.ok.injEq] at h
                      subst h
                      simp only [TestResults.set_test_result, Dict.find_set_self,
                        ih _ _ hs, Dict.set_set_same]

/-- witness for C5 at a concrete input: inserting `A.B` into the empty tree
once and then again. -/
theorem set_test_result_idempotent_witness :
    TestResults.set_test_result .nil ["A", "B"] true =
      .ok (.cons "A" (.dict (.cons "B" (.leaf true) .nil)) .nil) ∧
    TestResults.set_test_result (.cons "A" (.dict (.cons "B" (.leaf true) .nil)) .nil)
      ["A", "B"] true =
      .ok (.cons "A" (.dict (.cons "B" (.leaf true) .nil)) .nil) :=
  ⟨rfl, set_test_result_idempotent ["A", "B"] .nil _ rfl⟩

/-!
Claim C2: the strict mutation fails, without inserting, on any path that is
not fully present.
-/

/-- on a path that is not fully present, the strict walk errors for every
start node. -/
theorem set_existing_node_error_of_absent :
    ∀ (parts : List String) (n : Node) (v : Bool),
      path_present n parts = false →
      ∃ e, TestResults.AllFail.set_existing_node n parts v = .error e := by
  intro parts
  induction parts with
  | nil =>
      intro n v _
      exact ⟨.indexError, by cases n <;> rfl⟩
  | cons key rest ih =>
      intro n v h
      cases n with
      | leaf b => exact ⟨.typeError, rfl⟩
      | dict d =>
          cases rest with
          | nil =>
              rw [path_present] at h
              have hf : d.find key = none := by
                cases hf : d.find key with
                | none => rfl
                | some sub => rw [hf] at h; simp at h
              exact ⟨.keyErrorTest, by
                rw [TestResults.AllFail.set_existing_node, hf]⟩
          | cons k2 r2 =>
              simp only [path_present] at h
              cases hf : d.find key with
              | none =>
                  exact ⟨.keyErrorCategory, by
                    simp [TestResults.AllFail.set_existing_node, hf]⟩
              | some sub =>
                  simp only [hf] at h
                  obtain ⟨e, he⟩ := ih sub v h
                  exact ⟨e, by
                    simp [TestResults.AllFail.set_existing_node, hf, he]⟩

/-- C2: for every tree and every path that is not fully present in it (a
missing intermediate segment, an intermediate segment resolving to a leaf, or
a missing final key), the strict `set_test_result_existing` raises instead of
inserting: it produces an error and no tree, so the caller's tree is the
unmodified original — as in the source, where the single store is the last
statement, after every check. -/
theorem set_existing_errors_when_path_absent (d : Dict) (parts : List String)
    (v : Bool) (h : path_present (.dict d) parts = false) :
    ∃ e, TestResults.AllFail.set_test_result_existing d parts v = .error e :=
  set_existing_node_error_of_absent parts (.dict d) v h

/-- witness for C2 at the spec's Scenario C: applying the failure
`Required.Proto2.ProtobufInput.Missing` to the Scenario A canonical tree. -/
theorem set_existing_errors_when_path_absent_witness :
    path_present (.dict scenarioTree)
      ["Required", "Proto2", "ProtobufInput", "Missing"] = false ∧
    ∃ e, TestResults.AllFail.set_test_result_existing scenarioTree
      ["Required", "Proto2", "ProtobufInput", "Missing"] false = .error e :=
  ⟨by decide, set_existing_errors_when_path_absent _ _ _ (by decide)⟩

/-!
Claim C4: characterization of `get_subtree_by_path`.
-/

/-- when the walk resolves to a mapping, `get_subtree_by_path` returns it. -/
theorem get_subtree_ok_of_resolves :
    ∀ (path : List String) (d d' : Dict), resolves_to_dict d path = some d' →
      TestResults.get_subtree_node (.dict d) path = .ok (.dict d') := by
  intro path
  induction path with
  | nil =>
      intro d d' h
      simp only [resolves_to_dict, Option.some.injEq] at h
      subst h
      rfl
  | cons k rest ih =>
      intro d d' h
      simp only [resolves_to_dict] at h
      cases hf : d.find k with
      | none => simp [hf] at h
      | some sub =>
          cases sub with
          | leaf b => simp [hf] at h
          | dict m =>
              simp only [hf] at h
              simp only [TestResults.get_subtree_node, hf]
              exact ih m d' h

/-- when the walk does not resolve to a mapping, `get_subtree_by_path`
errors. -/
theorem get_subtree_error_of_not_resolves :
    ∀ (path : List String) (d : Dict), resolves_to_dict d path = none →
      ∃ e, TestResults.get_subtree_node (.dict d) path = .error e := by
  intro path
  induction path with
  | nil => intro d h; simp [resolves_to_dict] at h
  | cons k rest ih =>
      intro d h
      simp only [resolves_to_dict] at h
      cases hf : d.find k with
      | none =>
          exact ⟨.keyErrorCategory, by simp [TestResults.get_subtree_node, hf]⟩
      | some sub =>
          cases sub with
          | leaf b =>
              exact ⟨.assertionError, by simp [TestResults.get_subtree_node, hf]⟩
          | dict m =>
              simp only [hf] at h
              obtain ⟨e, he⟩ := ih m h
              exact ⟨e, by simp [TestResults.get_subtree_node, hf, he]⟩

/-- a final segment resolving to a boolean leaf makes `get_subtree_by_path`
fail the `assert isinstance(node, dict)` that follows the last descent. -/
theorem get_subtree_assert_on_final_leaf :
    ∀ (pre : List String) (d d' : Dict) (k : String) (b : Bool),
      resolves_to_dict d pre = some d' → d'.find k = some (.leaf b) →
      TestResults.get_subtree_node (.dict d) (pre ++ [k]) =
        .error .assertionError := by
  intro pre
  induction pre with
  | nil =>
      intro d d' k b h hk
      simp only [resolves_to_dict, Option.some.injEq] at h
      subst h
      simp [TestResults.get_subtree_node, hk]
  | cons k0 rest ih =>
      intro d d' k b h hk
      simp only [resolves_to_dict] at h
      cases hf : d.find k0 with
      | none => simp [hf] at h
      | some sub =>
          cases sub with
          | leaf b0 => simp [hf] at h
          | dict m =>
              simp only [hf] at h
              simp only [List.cons_append, TestResults.get_subtree_node, hf]
              exact ih m d' k b h hk

/-- C4 counterexample: on the tree with the single boolean leaf `A`, the path
`["A"]` resolves to that leaf, yet `get_subtree_by_path` raises an assertion
error instead of returning the leaf as the claim states. -/
theorem get_subtree_leaf_not_returned :
    TestResults.get_subtree_by_path (.cons "A" (.leaf true) .nil) ["A"] =
      .error .assertionError ∧
    TestResults.get_subtree_by_path (.cons "A" (.leaf true) .nil) ["A"] ≠
      .ok (.leaf true) :=
  ⟨rfl, fun h => by
    rw [show TestResults.get_subtree_by_path (.cons "A" (.leaf true) .nil) ["A"] =
      .error .assertionError from rfl] at h
    exact Except.noConfusion h⟩

/-- C4 (amended): `get_subtree_by_path` descends segment by segment and
returns the node reached at the end of the path when every descended-to node
is an interior mapping; it fails when some segment is absent or resolves
through a non-mapping before the path is exhausted, and also — through the
assertion that follows every descent — when the final segment resolves to a
boolean leaf, which is not returned. -/
theorem get_subtree_by_path_characterization (d : Dict) (path : List String) :
    (∀ d', resolves_to_dict d path = some d' →
      TestResults.get_subtree_by_path d path = .ok (.dict d')) ∧
    (resolves_to_dict d path = none →
      ∃ e, TestResults.get_subtree_by_path d path = .error e) ∧
    (∀ pre k d' b, path = pre ++ [k] → resolves_to_dict d pre = some d' →
      d'.find k = some (.leaf b) →
      TestResults.get_subtree_by_path d path = .error .assertionError) := by
  refine ⟨fun d' h => get_subtree_ok_of_resolves path d d' h,
    fun h => get_subtree_error_of_not_resolves path d h,
    fun pre k d' b hp h hk => ?_⟩
  rw [hp]
  exact get_subtree_assert_on_final_leaf pre d d' k b h hk

/-- witness for C4 (amended) at concrete inputs: a category path of the
Scenario A tree resolves to its mapping; a missing path errors; a path ending
at a leaf raises the assertion error. -/
theorem get_subtree_by_path_characterization_witness :
    TestResults.get_subtree_by_path scenarioTree ["Required", "Proto2"] =
      .ok (.dict (.cons "ProtobufInput" (.dict (.cons "Foo" (.leaf true) .nil)) .nil)) ∧
    (∃ e, TestResults.get_subtree_by_path scenarioTree ["Nope"] = .error e) ∧
    TestResults.get_subtree_by_path scenarioTree
      ["Required", "Proto2", "ProtobufInput", "Foo"] = .error .assertionError :=
  ⟨(get_subtree_by_path_characterization scenarioTree ["Required", "Proto2"]).1 _ rfl,
   (get_subtree_by_path_characterization scenarioTree ["Nope"]).2.1 rfl,
   (get_subtree_by_path_characterization scenarioTree
      ["Required", "Proto2", "ProtobufInput", "Foo"]).2.2
     ["Required", "Proto2", "ProtobufInput"] "Foo"
     (.cons "Foo" (.leaf true) .nil) true rfl rfl rfl⟩

/-!
Claim C1: the strict mutation on a fully-present path.
-/

/-- C1 (code bug): in `src/conformance/test_results_parser.py` the final
checks of `set_test_result_existing` read the identifier string `test` where
they mean the walked node (`if not isinstance(test, dict)` and
`if leaf not in test`), so on the Scenario A canonical tree and the fully
present path `Required.Proto2.ProtobufInput.Foo` — whose intermediate
segments all resolve to interior mappings and whose final segment is an
existing boolean leaf, as the first conjunct exhibits — the call raises
`TypeError` instead of succeeding.  The sibling variant in
`src/conformance/all_fail_testee/test_results_parser.py`, which checks the
node as the claim (and the error message of the buggy variant itself)
intends, succeeds and sets exactly that leaf. -/
theorem main_set_existing_raises_on_present_path :
    TestResults.Main.walk_existing (.dict scenarioTree)
      ["Required", "Proto2", "ProtobufInput"] =
      .ok (.dict (.cons "Foo" (.leaf true) .nil)) ∧
    TestResults.Main.set_test_result_existing scenarioTree
      ["Required", "Proto2", "ProtobufInput", "Foo"] false = .error .typeError ∧
    TestResults.AllFail.set_test_result_existing scenarioTree
      ["Required", "Proto2", "ProtobufInput", "Foo"] false =
      .ok (.dict scenarioTreeFooFailed) :=
  ⟨rfl, rfl, rfl⟩

/-!
Claim C6: bounds and zero-division behaviour of `percent_passing`.
-/

/-- C6: `percent_passing` returns `passing / total * 100`, which lies in
`[0, 100]` whenever `0 ≤ passing ≤ total` and `0 < total`; when `total = 0`
it raises `ZeroDivisionError` instead of returning a value. -/
theorem percent_passing_bounds (s : TestResults.SectionResult) :
    (0 < s.total → s.passing ≤ s.total →
      s.percent_passing = .ok ((s.passing : ℚ) / (s.total : ℚ) * 100) ∧
      ∀ q : ℚ, s.percent_passing = .ok q → 0 ≤ q ∧ q ≤ 100) ∧
    (s.total = 0 → s.percent_passing = .error .zeroDivisionError) := by
  constructor
  · intro ht hp
    have htz : s.total ≠ 0 := Nat.pos_iff_ne_zero.mp ht
    constructor
    · simp [TestResults.SectionResult.percent_passing, htz]
    · intro q hq
      simp only [TestResults.SectionResult.percent_passing, htz, if_false,
        Except.ok.injEq] at hq
      subst hq
      have htq : (0 : ℚ) < (s.total : ℚ) := by exact_mod_cast ht
      constructor
      · positivity
      · have h1 : (s.passing : ℚ) / (s.total : ℚ) ≤ 1 :=
          (div_le_one htq).mpr (by exact_mod_cast hp)
        calc (s.passing : ℚ) / (s.total : ℚ) * 100 ≤ 1 * 100 := by
              exact mul_le_mul_of_nonneg_right h1 (by norm_num)
          _ = 100 := by norm_num
  · intro h
    simp [TestResults.SectionResult.percent_passing, h]

/-- witness for C6 at concrete inputs: a 3-of-4 section and the zero-total
section. -/
theorem percent_passing_bounds_witness :
    ((TestResults.SectionResult.mk 4 3).percent_passing = .ok ((3 : ℚ) / 4 * 100) ∧
      ∀ q : ℚ, (TestResults.SectionResult.mk 4 3).percent_passing = .ok q →
        0 ≤ q ∧ q ≤ 100) ∧
    (TestResults.SectionResult.mk 0 7).percent_passing = .error .zeroDivisionError :=
  ⟨(percent_passing_bounds ⟨4, 3⟩).1 (by norm_num) (by norm_num),
   (percent_passing_bounds ⟨0, 7⟩).2 rfl⟩

/-!
Claim C7: totality and fallback behaviour of the classifiers.
-/

/-- C7: segment classification never fails.  The rules apply in source order:
a segment-2 string containing `"Json"` maps to `"JSON"`, one containing
`"TextFormat"` (and not `"Json"`) maps to `"Text format"`, and every other
string — for example `"ProtobufInput"` — silently defaults to
`"Wire format"`; likewise a segment-1 string containing `"Proto2"` maps to
`"Proto2"`, one containing `"Proto3"` (and not `"Proto2"`) maps to
`"Proto3"`, and every other string passes through unchanged.  Both functions
are total, so no input raises. -/
theorem classification_never_fails (t v : String) :
    (ConformanceReport.pyIn "Json" t = true →
      ConformanceReport.get_test_format t = "JSON") ∧
    (ConformanceReport.pyIn "Json" t = false →
      ConformanceReport.pyIn "TextFormat" t = true →
      ConformanceReport.get_test_format t = "Text format") ∧
    (ConformanceReport.pyIn "Json" t = false →
      ConformanceReport.pyIn "TextFormat" t = false →
      ConformanceReport.get_test_format t = "Wire format") ∧
    ConformanceReport.get_test_format "ProtobufInput" = "Wire format" ∧
    (ConformanceReport.pyIn "Proto2" v = true →
      ConformanceReport.normalize_proto_version v = "Proto2") ∧
    (ConformanceReport.pyIn "Proto2" v = false →
      ConformanceReport.pyIn "Proto3" v = true →
      ConformanceReport.normalize_proto_version v = "Proto3") ∧
    (ConformanceReport.pyIn "Proto2" v = false →
      ConformanceReport.pyIn "Proto3" v = false →
      ConformanceReport.normalize_proto_version v = v) := by
  refine ⟨?_, ?_, ?_, by decide, ?_, ?_, ?_⟩
  · intro h; simp [ConformanceReport.get_test_format, h]
  · intro h1 h2; simp [ConformanceReport.get_test_format, h1, h2]
  · intro h1 h2; simp [ConformanceReport.get_test_format, h1, h2]
  · intro h; simp [ConformanceReport.normalize_proto_version, h]
  · intro h1 h2; simp [ConformanceReport.normalize_proto_version, h1, h2]
  · intro h1 h2; simp [ConformanceReport.normalize_proto_version, h1, h2]

/-- witness for C7 at concrete segments, including the depended-upon
`ProtobufInput` fallback and an unrecognized future edition name. -/
theorem classification_never_fails_witness :
    ConformanceReport.get_test_format "JsonInput" = "JSON" ∧
    ConformanceReport.get_test_format "TextFormatInput" = "Text format" ∧
    ConformanceReport.get_test_format "ProtobufInput" = "Wire format" ∧
    ConformanceReport.normalize_proto_version "Editions_Proto2" = "Proto2" ∧
    ConformanceReport.normalize_proto_version "Editions_Proto3" = "Proto3" ∧
    ConformanceReport.normalize_proto_version "Edition2049" = "Edition2049" :=
  ⟨(classification_never_fails "JsonInput" "x").1 (by decide),
   (classification_never_fails "TextFormatInput" "x").2.1 (by decide) (by decide),
   (classification_never_fails "x" "x").2.2.2.1,
   (classification_never_fails "x" "Editions_Proto2").2.2.2.2.1 (by decide),
   (classification_never_fails "x" "Editions_Proto3").2.2.2.2.2.1
     (by decide) (by decide),
   (classification_never_fails "x" "Edition2049").2.2.2.2.2.2
     (by decide) (by decide)⟩

/-!
Claim C8: clamping, piecewise-linear shape, and boundary continuity of the
badge color.
-/

/-- two inputs with the same clamped value get the same color. -/
theorem bar_color_eq_of_clamp_eq {a b : ℚ}
    (h : max 0 (min 100 a) = max 0 (min 100 b)) :
    ConformanceReport._bar_color a = ConformanceReport._bar_color b := by
  simp only [ConformanceReport._bar_color]
  rw [h]

/-- C8: `_bar_color` clamps its input to `[0, 100]` and is piecewise linear
with independently interpolated channels: below the clamp it equals the color
at 0 and above it the color at 100; on `[0, 60)` it truncates the red-to-orange
interpolation at `t = pct/60` and on `[60, 100]` the orange-to-green
interpolation at `t = (pct-60)/40`; and at the segment boundary the channels
of `_bar_color 59.9` and `_bar_color 60` each differ by at most 1. -/
theorem bar_color_clamped_piecewise_continuous (pct : ℚ) :
    (pct ≤ 0 → ConformanceReport._bar_color pct = ConformanceReport._bar_color 0) ∧
    (100 ≤ pct →
      ConformanceReport._bar_color pct = ConformanceReport._bar_color 100) ∧
    (0 ≤ pct → pct < 60 → ConformanceReport._bar_color pct =
      (ConformanceReport.pyInt (ConformanceReport._lerp 180 200 (pct / 60)),
       ConformanceReport.pyInt (ConformanceReport._lerp 60 140 (pct / 60)),
       ConformanceReport.pyInt (ConformanceReport._lerp 55 55 (pct / 60)))) ∧
    (60 ≤ pct → pct ≤ 100 → ConformanceReport._bar_color pct =
      (ConformanceReport.pyInt (ConformanceReport._lerp 200 68 ((pct - 60) / 40)),
       ConformanceReport.pyInt (ConformanceReport._lerp 140 148 ((pct - 60) / 40)),
       ConformanceReport.pyInt (ConformanceReport._lerp 55 68 ((pct - 60) / 40)))) ∧
    (|(ConformanceReport._bar_color (599/10)).1 -
        (ConformanceReport._bar_color 60).1| ≤ 1 ∧
      |(ConformanceReport._bar_color (599/10)).2.1 -
        (ConformanceReport._bar_color 60).2.1| ≤ 1 ∧
      |(ConformanceReport._bar_color (599/10)).2.2 -
        (ConformanceReport._bar_color 60).2.2| ≤ 1) := by
  have e1 : ConformanceReport._bar_color (599/10) = (199, 139, 55) := by
    norm_num [ConformanceReport._bar_color, ConformanceReport._lerp,
      ConformanceReport.pyInt]
  have e2 : ConformanceReport._bar_color 60 = (200, 140, 55) := by
    norm_num [ConformanceReport._bar_color, ConformanceReport._lerp,
      ConformanceReport.pyInt]
  refine ⟨?_, ?_, ?_, ?_, ?_⟩
  · intro h
    apply bar_color_eq_of_clamp_eq
    rw [min_eq_right (h.trans (by norm_num)), max_eq_left h]
    norm_num
  · intro h
    apply bar_color_eq_of_clamp_eq
    rw [min_eq_left h]
    norm_num
  · intro h1 h2
    simp only [ConformanceReport._bar_color]
    rw [min_eq_right (h2.le.trans (by norm_num)), max_eq_right h1, if_pos h2]
  · intro h1 h2
    simp only [ConformanceReport._bar_color]
    rw [min_eq_right h2, max_eq_right ((by norm_num : (0:ℚ) ≤ 60).trans h1),
      if_neg (not_lt.mpr h1)]
  · rw [e1, e2]
    norm_num

/-- leaf paths enumerated from a dict are nonempty. -/
theorem leavesD_ne_nil (d : Dict) {q : List String} {b : Bool}
    (h : (q, b) ∈ leavesD d) : q ≠ [] := by
  induction d using Dict.spine_ind with
  | nil => simp [leavesD] at h
  | cons k v rest ih =>
      rw [leavesD] at h
      rcases List.mem_append.mp h with hl | hr
      · obtain ⟨p, -, hp⟩ := List.mem_map.mp hl
        injection hp with h1 h2
        rw [← h1]
        simp
      · exact ih hr

/-- inserting a path no existing leaf path is prefix-related to succeeds and
adds exactly that leaf to the enumeration. -/
theorem set_test_result_fresh :
    ∀ (parts : List String) (d : Dict) (v : Bool),
      parts ≠ [] →
      (∀ q b, (q, b) ∈ leavesD d → ¬ q <+: parts) →
      (∀ q b, (q, b) ∈ leavesD d → ¬ (parts <+: q ∧ parts ≠ q)) →
      ∃ d', TestResults.set_test_result d parts v = .ok d' ∧
        leavesD d' ~ (parts, v) :: leavesD d := by
  intro parts
  induction parts with
  | nil => intro d v h _ _; exact absurd rfl h
  | cons key rest ih =>
      intro d v _ h1 h2
      cases rest with
      | nil =>
          refine ⟨d.set key (.leaf v), by rw [TestResults.set_test_result], ?_⟩
          cases hf : d.find key with
          | none =>
              rw [leavesD_set_of_find_none d key _ hf]
              simp only [leavesN, List.map_cons, List.map_nil]
              exact List.perm_append_singleton _ _
          | some m =>
              cases m with
              | leaf b =>
                  exact absurd (List.prefix_refl _)
                    (h1 [key] b (mem_leavesD_of_find d key _ hf (by simp [leavesN])))
              | dict sub =>
                  have hsub : leavesD sub = [] := by
                    cases hq : leavesD sub with
                    | nil => rfl
                    | cons p ps =>
                        exfalso
                        obtain ⟨q0, b0⟩ := p
                        have hm : (q0, b0) ∈ leavesN (.dict sub) := by
                          rw [leavesN, hq]; exact List.mem_cons_self _ _
                        have hq0 : q0 ≠ [] := by
                          rw [leavesN] at hm
                          exact leavesD_ne_nil sub hm
                        refine h2 (key :: q0) b0
                          (mem_leavesD_of_find d key _ hf hm) ⟨⟨q0, rfl⟩, ?_⟩
                        intro he
                        injection he with he1 he2
                        exact hq0 he2.symm
                  obtain ⟨pre, post, hd, hd'⟩ :=
                    leavesD_set_of_find_some d key _ (.leaf v) hf
                  rw [hd', hd]
                  simp only [leavesN, hsub, List.map_nil, List.map_cons,
                    List.append_nil]
                  rw [List.append_assoc, List.singleton_append]
                  exact List.perm_middle
      | cons k2 r2 =>
          cases hf : d.find key with
          | none =>
              obtain ⟨sub, hs, hp⟩ := ih .nil v (by simp)
                (by simp [leavesD]) (by simp [leavesD])
              refine ⟨d.set key (.dict sub), ?_, ?_⟩
              · simp only [TestResults.set_test_result, hf, hs]
              · rw [leavesD_set_of_find_none d key _ hf]
                rw [leavesD] at hp
                calc leavesD d ++
                      (leavesN (.dict sub)).map (fun p => (key :: p.1, p.2))
                    ~ leavesD d ++ [(key :: k2 :: r2, v)] := by
                      refine List.Perm.append_left _ ?_
                      rw [leavesN]
                      simpa using hp.map (fun p => (key :: p.1, p.2))
                  _ ~ (key :: k2 :: r2, v) :: leavesD d :=
                      List.perm_append_singleton _ _
          | some m =>
              cases m with
              | leaf b =>
                  exact absurd ⟨k2 :: r2, rfl⟩
                    (h1 [key] b (mem_leavesD_of_find d key _ hf (by simp [leavesN])))
              | dict sub =>
                  have c1 : ∀ q b, (q, b) ∈ leavesD sub → ¬ q <+: (k2 :: r2) := by
                    intro q b hq hpre
                    obtain ⟨t, ht⟩ := hpre
                    exact h1 (key :: q) b
                      (mem_leavesD_of_find d key _ hf (by rw [leavesN]; exact hq))
                      ⟨t, by rw [List.cons_append, ht]⟩
                  have c2 : ∀ q b, (q, b) ∈ leavesD sub →
                      ¬ ((k2 :: r2) <+: q ∧ (k2 :: r2) ≠ q) := by
                    rintro q b hq ⟨⟨t, ht⟩, hne'⟩
                    refine h2 (key :: q) b
                      (mem_leavesD_of_find d key _ hf (by rw [leavesN]; exact hq))
                      ⟨⟨t, by rw [List.cons_append, ht]⟩, ?_⟩
                    intro he
                    injection he with he1 he2
                    exact hne' he2
                  obtain ⟨sub', hs, hp⟩ := ih sub v (by simp) c1 c2
                  refine ⟨d.set key (.dict sub'), ?_, ?_⟩
                  · simp only [TestResults.set_test_result, hf, hs]
                  · obtain ⟨pre, post, hd, hd'⟩ :=
                      leavesD_set_of_find_some d key _ (.dict sub') hf
                    rw [hd', hd]
                    have hmap : (leavesN (Node.dict sub')).map (fun p => (key :: p.1, p.2)) ~
                        (key :: k2 :: r2, v) ::
                          (leavesN (Node.dict sub)).map (fun p => (key :: p.1, p.2)) := by
                      rw [leavesN, leavesN]
                      simpa using hp.map (fun p => (key :: p.1, p.2))
                    calc pre ++ (leavesN (Node.dict sub')).map (fun p => (key :: p.1, p.2)) ++ post
                        ~ pre ++ ((key :: k2 :: r2, v) ::
                            (leavesN (Node.dict sub)).map (fun p => (key :: p.1, p.2))) ++ post :=
                          (hmap.append_left pre).append_right post
                      _ = pre ++ ((key :: k2 :: r2, v) ::
                            ((leavesN (Node.dict sub)).map (fun p => (key :: p.1, p.2)) ++ post)) := by
                          simp [List.append_assoc]
                      _ ~ (key :: k2 :: r2, v) ::
                            (pre ++ ((leavesN (Node.dict sub)).map (fun p => (key :: p.1, p.2)) ++ post)) :=
                          List.perm_middle
                      _ = (key :: k2 :: r2, v) ::
                            (pre ++ (leavesN (Node.dict sub)).map (fun p => (key :: p.1, p.2)) ++ post) := by
                          simp [List.append_assoc]

/-- folding fresh inserts over a prefix-free, duplicate-free listing succeeds
and enumerates exactly the inserted paths in front of the existing leaves. -/
theorem insert_all_fresh :
    ∀ (ps : List (List String)) (d : Dict),
      (∀ p ∈ ps, p ≠ []) → ps.Nodup →
      (∀ p ∈ ps, ∀ q ∈ ps, p <+: q → p = q) →
      (∀ p ∈ ps, ∀ q b, (q, b) ∈ leavesD d →
        ¬ q <+: p ∧ ¬ (p <+: q ∧ p ≠ q)) →
      ∃ d', TestResults.insert_all d ps = .ok d' ∧
        leavesD d' ~ ps.map (fun p => (p, true)) ++ leavesD d := by
  intro ps
  induction ps with
  | nil => intro d _ _ _ _; exact ⟨d, rfl, by simp⟩
  | cons p ps' ih =>
      intro d hne hnd hpf h4
      have hpnotmem : p ∉ ps' := (List.nodup_cons.mp hnd).1
      obtain ⟨d1, hok1, hp1⟩ := set_test_result_fresh p d true
        (hne p (List.mem_cons_self _ _))
        (fun q b hq => (h4 p (List.mem_cons_self _ _) q b hq).1)
        (fun q b hq => (h4 p (List.mem_cons_self _ _) q b hq).2)
      obtain ⟨d2, hok2, hp2⟩ := ih d1
        (fun q hq => hne q (List.mem_cons_of_mem _ hq))
        (List.nodup_cons.mp hnd).2
        (fun a ha b hb => hpf a (List.mem_cons_of_mem _ ha) b (List.mem_cons_of_mem _ hb))
        (by
          intro p' hp' q b hq
          rcases List.mem_cons.mp (hp1.subset hq) with hqp | hqd
          · injection hqp with hq1 hq2
            constructor
            · intro hpre
              rw [hq1] at hpre
              exact hpnotmem
                (hpf p (List.mem_cons_self _ _) p' (List.mem_cons_of_mem _ hp') hpre ▸ hp')
            · rintro ⟨hpre, hne'⟩
              rw [hq1] at hpre hne'
              exact hne'
                (hpf p' (List.mem_cons_of_mem _ hp') p (List.mem_cons_self _ _) hpre)
          · exact h4 p' (List.mem_cons_of_mem _ hp') q b hqd)
      refine ⟨d2, ?_, ?_⟩
      · simp only [TestResults.insert_all, hok1, hok2]
      · calc leavesD d2
            ~ ps'.map (fun p => (p, true)) ++ leavesD d1 := hp2
          _ ~ ps'.map (fun p => (p, true)) ++ ((p, true) :: leavesD d) :=
              List.Perm.append_left _ hp1
          _ ~ (p, true) :: (ps'.map (fun p => (p, true)) ++ leavesD d) :=
              List.perm_middle
          _ = (p :: ps').map (fun p => (p, true)) ++ leavesD d := by simp

/-- C3: building the canonical tree by soft-inserting `true` at each of `N`
distinct nonempty identifiers, none of which is a proper prefix of another,
succeeds; taking the whole-tree subtree (`get_subtree` with the empty path)
and counting leaves yields exactly `N`, and `count_passing_tests` yields `N`
as well since every leaf is `true`. -/
theorem build_canonical_counts (paths : List (List String))
    (hne : ∀ p ∈ paths, p ≠ [])
    (hnd : paths.Nodup)
    (hpf : ∀ p ∈ paths, ∀ q ∈ paths, p <+: q → p = q) :
    ∃ d, TestResults.all_tests_as_dict_from_all_fails paths = .ok d ∧
      TestResults.get_subtree_by_path d [] = .ok (.dict d) ∧
      TestResults.count_tests (.dict d) = paths.length ∧
      TestResults.count_passing_tests (.dict d) = paths.length := by
  obtain ⟨d, hok, hperm⟩ := insert_all_fresh paths .nil hne hnd hpf
    (fun p _ q b hq => by simp [leavesD] at hq)
  refine ⟨d, hok, rfl, ?_, ?_⟩
  · rw [TestResults.count_tests, count_testsD_eq_length, hperm.length_eq]
    simp [leavesD]
  · rw [TestResults.count_passing_tests, count_passingD_eq_countP,
      hperm.countP_eq]
    simp only [leavesD, List.countP_append, List.countP_map]
    have : ((fun p : List String × Bool => p.2) ∘ fun p => (p, true)) =
        fun _ => true := rfl
    rw [this]
    simp [List.countP_true]

/-- witness for C3 at the spec's Scenario A listing of two identifiers. -/
theorem build_canonical_counts_witness :
    ∃ d, TestResults.all_tests_as_dict_from_all_fails scenarioPaths = .ok d ∧
      TestResults.get_subtree_by_path d [] = .ok (.dict d) ∧
      TestResults.count_tests (.dict d) = scenarioPaths.length ∧
      TestResults.count_passing_tests (.dict d) = scenarioPaths.length :=
  build_canonical_counts scenarioPaths (by decide) (by decide) (by decide)

/-!
Claim C10: the soft insert does not guard the final segment and replaces a
whole interior subtree by one leaf.
-/

/-- C10: when every intermediate segment of a path resolves to an interior
mapping and the final segment maps to an interior mapping `sub` (a category
with deeper leaves) — expressed by the intermediate walk reaching `.dict sub`
— the soft insert of a boolean at that path succeeds without error, the path
afterwards holds the single leaf, and the tree's leaf count drops to what it
was plus one minus every test previously below `sub`. -/
theorem soft_insert_replaces_interior (parts : List String) (d sub : Dict)
    (v : Bool) (hne : parts ≠ [])
    (hw : TestResults.Main.walk_existing (.dict d) parts = .ok (.dict sub)) :
    ∃ d', TestResults.set_test_result d parts v = .ok d' ∧
      TestResults.Main.walk_existing (.dict d') parts = .ok (.leaf v) ∧
      TestResults.count_testsD d' + TestResults.count_testsD sub =
        TestResults.count_testsD d + 1 := by
  induction parts generalizing d sub with
  | nil => exact absurd rfl hne
  | cons key rest ih =>
      simp only [TestResults.Main.walk_existing] at hw
      cases hf : d.find key with
      | none => simp [hf] at hw
      | some m =>
          simp only [hf] at hw
          cases rest with
          | nil =>
              simp only [TestResults.Main.walk_existing, Except.ok.injEq] at hw
              subst hw
              refine ⟨d.set key (.leaf v), by rw [TestResults.set_test_result],
                ?_, ?_⟩
              · simp [TestResults.Main.walk_existing, Dict.find_set_self]
              · have h2 := count_testsD_set_of_find_some d key _ (.leaf v) hf
                simp only [TestResults.count_tests] at h2
                omega
          | cons k2 r2 =>
              cases m with
              | leaf b => simp [TestResults.Main.walk_existing] at hw
              | dict subk =>
                  obtain ⟨subk', hok, hwalk, hcount⟩ := ih subk sub (by simp) hw
                  refine ⟨d.set key (.dict subk'), ?_, ?_, ?_⟩
                  · simp only [TestResults.set_test_result, hf, hok]
                  · simp only [TestResults.Main.walk_existing, Dict.find_set_self]
                    exact hwalk
                  · have h2 := count_testsD_set_of_find_some d key _ (.dict subk') hf
                    simp only [TestResults.count_tests] at h2
                    omega

/-- witness for C10 at a concrete input: inserting a boolean at `A` when `A`
is a category holding the leaf `A.B`. -/
theorem soft_insert_replaces_interior_witness :
    ∃ d', TestResults.set_test_result
        (.cons "A" (.dict (.cons "B" (.leaf true) .nil)) .nil) ["A"] true = .ok d' ∧
      TestResults.Main.walk_existing (.dict d') ["A"] = .ok (.leaf true) ∧
      TestResults.count_testsD d' +
          TestResults.count_testsD (.cons "B" (.leaf true) .nil) =
        TestResults.count_testsD (.cons "A" (.dict (.cons "B" (.leaf true) .nil)) .nil) + 1 :=
  soft_insert_replaces_interior ["A"]
    (.cons "A" (.dict (.cons "B" (.leaf true) .nil)) .nil)
    (.cons "B" (.leaf true) .nil) true (by simp) rfl

/-!
Lemmas for the object-store model, and claim C9.
-/

namespace Heap

/-- a successful entry lookup is a membership. -/
theorem lookupEntry_mem : ∀ (es : List (String × Addr)) (key : String) (a : Addr),
    lookupEntry es key = some a → (key, a) ∈ es := by
  intro es key a h
  induction es with
  | nil => simp [lookupEntry] at h
  | cons q rest ih =>
      obtain ⟨k, b⟩ := q
      rw [lookupEntry] at h
      by_cases hk : k = key
      · rw [if_pos hk] at h
        injection h with h
        subst hk
        subst h
        exact List.mem_cons_self _ _
      · rw [if_neg hk] at h
        exact List.mem_cons_of_mem _ (ih h)

/-- every entry after a rebind is the fresh address or an original entry. -/
theorem setEntry_mem : ∀ (es : List (String × Addr)) (key : String) (a : Addr)
    (p : String × Addr), p ∈ setEntry es key a → p.2 = a ∨ p ∈ es := by
  intro es key a
  induction es with
  | nil =>
      intro p hp
      rw [setEntry] at hp
      rw [List.mem_singleton.mp hp]
      exact Or.inl rfl
  | cons q rest ih =>
      obtain ⟨k, b⟩ := q
      intro p hp
      rw [setEntry] at hp
      by_cases hk : k = key
      · rw [if_pos hk] at hp
        rcases List.mem_cons.mp hp with h | hmem
        · rw [h]; exact Or.inl rfl
        · exact Or.inr (List.mem_cons_of_mem _ hmem)
      · rw [if_neg hk] at hp
        rcases List.mem_cons.mp hp with h | hmem
        · rw [h]; exact Or.inr (List.mem_cons_self _ _)
        · rcases ih p hmem with h | h
          · exact Or.inl h
          · exact Or.inr (List.mem_cons_of_mem _ h)

/-- reads below the old length are unchanged by extending the store. -/
theorem getElem?_of_extension {σ σ' : Store} (h : σ <+: σ') {i : Nat}
    (hi : i < σ.length) : σ'[i]? = σ[i]? := by
  obtain ⟨t, rfl⟩ := h
  rw [List.getElem?_append]
  simp [hi]

mutual
/-- a readable graph stays readable in any extension of the store. -/
theorem Reads.store_extend : ∀ {σ σ' : Store} {a : Addr} {t : Node},
    σ <+: σ' → Reads σ a t → Reads σ' a t
  | _, _, _, _, h, .leaf hget =>
      .leaf (by
        rw [getElem?_of_extension h (List.getElem?_eq_some.mp hget).1]; exact hget)
  | _, _, _, _, h, .dict hget hes =>
      .dict (by
        rw [getElem?_of_extension h (List.getElem?_eq_some.mp hget).1]; exact hget)
        (ReadsEntries.entries_extend h hes)
/-- readable entries stay readable in any extension of the store. -/
theorem ReadsEntries.entries_extend : ∀ {σ σ' : Store} {es : List (String × Addr)} {d : Dict},
    σ <+: σ' → ReadsEntries σ es d → ReadsEntries σ' es d
  | _, _, _, _, _, .nil => .nil
  | _, _, _, _, h, .cons hr hes =>
      .cons (Reads.store_extend h hr) (ReadsEntries.entries_extend h hes)
end

mutual
/-- reading a confined graph only depends on the store below `n`. -/
theorem Reads.store_agree : ∀ {σ σ' : Store} {n : Nat} {a : Addr} {t : Node},
    (∀ i, i < n → σ'[i]? = σ[i]?) → confinedBelow σ n → a < n →
    Reads σ a t → Reads σ' a t
  | _, _, _, a, _, hag, _, ha, .leaf hget => .leaf (by rw [hag a ha]; exact hget)
  | _, _, _, a, _, hag, hconf, ha, .dict hget hes =>
      .dict (by rw [hag a ha]; exact hget)
        (ReadsEntries.entries_agree hag hconf (hconf a _ ha hget) hes)
/-- reading confined entries only depends on the store below `n`. -/
theorem ReadsEntries.entries_agree : ∀ {σ σ' : Store} {n : Nat}
    {es : List (String × Addr)} {d : Dict},
    (∀ i, i < n → σ'[i]? = σ[i]?) → confinedBelow σ n →
    (∀ p ∈ es, p.2 < n) → ReadsEntries σ es d → ReadsEntries σ' es d
  | _, _, _, _, _, _, _, _, .nil => .nil
  | _, _, _, _, _, hag, hconf, hlt, .cons hr hes =>
      .cons (Reads.store_agree hag hconf (hlt _ (List.mem_cons_self _ _)) hr)
        (ReadsEntries.entries_agree hag hconf
          (fun p hp => hlt p (List.mem_cons_of_mem _ hp)) hes)
end

/-- reachability from a confined address stays below `n`. -/
theorem Reach.lt_of_confined {σ : Store} {n : Nat} {a b : Addr}
    (hconf : confinedBelow σ n) (ha : a < n) (h : Reach σ a b) : b < n := by
  induction h with
  | refl => exact ha
  | step hr hget hmem ih => exact hconf _ _ ih hget _ hmem

/-- reachability from an address in the fresh region stays in it. -/
theorem Reach.ge_of_closed {σ : Store} {n : Nat} {a b : Addr}
    (hcl : closedAbove σ n) (ha : n ≤ a) (h : Reach σ a b) : n ≤ b := by
  induction h with
  | refl => exact ha
  | step hr hget hmem ih => exact hcl _ _ ih hget _ hmem

/-- appending a node whose entries stay in the fresh region keeps the store
closed above `n`. -/
theorem closedAbove_append {σ : Store} {n : Nat} {x : HNode}
    (hcl : closedAbove σ n)
    (hx : ∀ es, x = HNode.dict es → ∀ p ∈ es, n ≤ p.2) :
    closedAbove (σ ++ [x]) n := by
  intro i es hni hget p hp
  by_cases hi : i < σ.length
  · rw [List.getElem?_append, if_pos hi] at hget
    exact hcl i es hni hget p hp
  · by_cases hieq : i = σ.length
    · subst hieq
      rw [List.getElem?_concat_length] at hget
      injection hget with hget
      exact hx es hget p hp
    · rw [List.getElem?_eq_none (by simp; omega)] at hget
      cases hget

/-- a store that agrees below `n` with a confined store is itself confined. -/
theorem confinedBelow_of_agree {σ σ' : Store} {n : Nat}
    (hag : ∀ i, i < n → σ'[i]? = σ[i]?) (hconf : confinedBelow σ n) :
    confinedBelow σ' n := by
  intro i es hi hget p hp
  rw [hag i hi] at hget
  exact hconf i es hi hget p hp

/-- the whole store is trivially closed above its own length. -/
theorem closedAbove_length (σ : Store) : closedAbove σ σ.length := by
  intro i es hni hget p hp
  rw [List.getElem?_eq_none hni] at hget
  cases hget

mutual
/-- allocation extends the store, places the root in the fresh region, makes
the value readable at the root, and keeps the store closed above any `n`
inside the original region. -/
theorem allocN_spec : ∀ (t : Node) (σ : Store),
    σ <+: (allocN σ t).1 ∧ σ.length ≤ (allocN σ t).2 ∧
    Reads (allocN σ t).1 (allocN σ t).2 t ∧
    (∀ n, n ≤ σ.length → closedAbove σ n → closedAbove (allocN σ t).1 n)
  | .leaf b, σ => by
      simp only [allocN]
      refine ⟨⟨[.leaf b], rfl⟩, le_refl _,
        .leaf (List.getElem?_concat_length σ _), ?_⟩
      intro n _ hcl
      exact closedAbove_append hcl (by intro es h; cases h)
  | .dict d, σ => by
      obtain ⟨hpre, hents, hreads, hcl⟩ := allocD_spec d σ
      simp only [allocN]
      refine ⟨hpre.trans ⟨[.dict (allocD σ d).2], rfl⟩, hpre.length_le,
        .dict (List.getElem?_concat_length _ _)
          (hreads.entries_extend ⟨[.dict (allocD σ d).2], rfl⟩), ?_⟩
      intro n hn hcl0
      refine closedAbove_append (hcl n hn hcl0) ?_
      intro es h p hp
      injection h with h
      subst h
      exact hn.trans (hents p hp)
/-- allocating a dict's entries extends the store, keeps every entry address
in the fresh region, makes the dict readable, and preserves closure. -/
theorem allocD_spec : ∀ (d : Dict) (σ : Store),
    σ <+: (allocD σ d).1 ∧ (∀ p ∈ (allocD σ d).2, σ.length ≤ p.2) ∧
    ReadsEntries (allocD σ d).1 (allocD σ d).2 d ∧
    (∀ n, n ≤ σ.length → closedAbove σ n → closedAbove (allocD σ d).1 n)
  | .nil, σ => by
      simp only [allocD]
      exact ⟨List.prefix_refl σ, by simp, .nil, fun n _ hcl => hcl⟩
  | .cons k v rest, σ => by
      obtain ⟨hpre1, hle1, hr1, hcl1⟩ := allocN_spec v σ
      obtain ⟨hpre2, hents2, hr2, hcl2⟩ := allocD_spec rest (allocN σ v).1
      simp only [allocD]
      refine ⟨hpre1.trans hpre2, ?_, .cons (hr1.store_extend hpre2) hr2, ?_⟩
      · intro p hp
        rcases List.mem_cons.mp hp with h | hmem
        · rw [h]; exact hle1
        · exact hpre1.length_le.trans (hents2 p hmem)
      · intro n hn hcl0
        exact hcl2 n (hn.trans hpre1.length_le) (hcl1 n hn hcl0)
end

/-- reading an index of the written-and-extended store, away from the write
and the fresh node. -/
theorem store_get_set_append_ne {σ : Store} {a i : Nat} {x y : HNode}
    (hia : i ≠ a) (hi : i < σ.length) :
    ((σ.set a x) ++ [y])[i]? = σ[i]? := by
  rw [List.getElem?_append, if_pos (by rw [List.length_set]; exact hi),
    List.getElem?_set_ne (Ne.symm hia)]

/-- reading the written index of the written-and-extended store. -/
theorem store_get_set_append_self {σ : Store} {a : Nat} {x y : HNode}
    (h : a < σ.length) :
    ((σ.set a x) ++ [y])[a]? = some x := by
  rw [List.getElem?_append, if_pos (by rw [List.length_set]; exact h),
    List.getElem?_set_self h]

/-- reading the freshly appended node of the written-and-extended store. -/
theorem store_get_set_append_last {σ : Store} {a : Nat} {x y : HNode} :
    ((σ.set a x) ++ [y])[σ.length]? = some y := by
  have hlen : (σ.set a x).length = σ.length := List.length_set σ a x
  calc ((σ.set a x) ++ [y])[σ.length]?
      = ((σ.set a x) ++ [y])[(σ.set a x).length]? := by rw [hlen]
    _ = some y := List.getElem?_concat_length _ _

/-- the strict heap mutation leaves the store below `n` untouched and keeps
the fresh region closed, provided it starts at an address in the closed fresh
region. -/
theorem hset_existing_frame :
    ∀ (parts : List String) (σ : Store) (a : Addr) (v : Bool) (n : Nat)
      (σ' : Store),
      closedAbove σ n → n ≤ a → n ≤ σ.length →
      hset_existing σ a parts v = .ok σ' →
      (∀ i, i < n → σ'[i]? = σ[i]?) ∧ closedAbove σ' n ∧ n ≤ σ'.length := by
  intro parts
  induction parts with
  | nil => intro σ a v n σ' _ _ _ h; simp [hset_existing] at h
  | cons key rest ih =>
      intro σ a v n σ' hcl hna hnσ h
      cases rest with
      | nil =>
          simp only [hset_existing] at h
          cases hget : σ[a]? with
          | none => simp [hget] at h
          | some node =>
              cases node with
              | leaf b => simp [hget] at h
              | dict es =>
                  simp only [hget] at h
                  cases hl : lookupEntry es key with
                  | none => simp [hl] at h
                  | some b0 =>
                      simp only [hl, Except.ok.injEq] at h
                      subst h
                      have haσ : a < σ.length := (List.getElem?_eq_some.mp hget).1
                      refine ⟨?_, ?_, ?_⟩
                      · intro i hi
                        exact store_get_set_append_ne (by omega) (by omega)
                      · intro i es0 hni hget0 p hp
                        by_cases hiσ : i < σ.length
                        · by_cases hia : i = a
                          · subst hia
                            rw [store_get_set_append_self haσ] at hget0
                            injection hget0 with hget0
                            injection hget0 with hget0
                            rcases setEntry_mem es key σ.length p
                                (hget0 ▸ hp) with h | h
                            · rw [h]; exact hnσ
                            · exact hcl i es hna hget p h
                          · rw [store_get_set_append_ne hia hiσ] at hget0
                            exact hcl i es0 hni hget0 p hp
                        · by_cases hieq : i = σ.length
                          · subst hieq
                            rw [store_get_set_append_last] at hget0
                            simp at hget0
                          · rw [List.getElem?_eq_none
                                (by simp [List.length_set]; omega)] at hget0
                            cases hget0
                      · simp only [List.length_append, List.length_set,
                          List.length_cons, List.length_nil]
                        omega
      | cons k2 r2 =>
          simp only [hset_existing] at h
          cases hget : σ[a]? with
          | none => simp [hget] at h
          | some node =>
              cases node with
              | leaf b => simp [hget] at h
              | dict es =>
                  simp only [hget] at h
                  cases hl : lookupEntry es key with
                  | none => simp [hl] at h
                  | some b =>
                      simp only [hl] at h
                      have hnb : n ≤ b :=
                        hcl a es hna hget (key, b) (lookupEntry_mem es key b hl)
                      exact ih σ b v n σ' hcl hnb hnσ h

/-- applying a whole failure listing to the copy leaves the store below `n`
untouched. -/
theorem happly_fails_frame :
    ∀ (fails : List (List String)) (σ : Store) (a : Addr) (n : Nat)
      (σ' : Store),
      closedAbove σ n → n ≤ a → n ≤ σ.length →
      happly_fails σ a fails = .ok σ' →
      (∀ i, i < n → σ'[i]? = σ[i]?) ∧ closedAbove σ' n ∧ n ≤ σ'.length := by
  intro fails
  induction fails with
  | nil =>
      intro σ a n σ' hcl _ hnσ h
      simp only [happly_fails, Except.ok.injEq] at h
      subst h
      exact ⟨fun i _ => rfl, hcl, hnσ⟩
  | cons p ps ih =>
      intro σ a n σ' hcl hna hnσ h
      simp only [happly_fails] at h
      cases hs : hset_existing σ a p false with
      | error e => simp [hs] at h
      | ok σ1 =>
          simp only [hs] at h
          obtain ⟨hag1, hcl1, hnσ1⟩ :=
            hset_existing_frame p σ a false n σ1 hcl hna hnσ hs
          obtain ⟨hag2, hcl2, hnσ2⟩ := ih σ1 a n σ' hcl1 hna hnσ1 h
          exact ⟨fun i hi => (hag2 i hi).trans (hag1 i hi), hcl2, hnσ2⟩

end Heap

/-- C9: for every store holding a canonical tree `t` at `a0` (its graph
confined to the store), deep-copying the tree and then applying any failure
listing to the copy leaves the canonical tree unchanged: the copy reads back
as `t`, it shares no substructure with the original (no address is reachable
from both roots), and after `apply_fails_to_perfect_report` mutates the copy
the original still reads back as `t`. -/
theorem deepcopy_isolates_canonical (σ0 : Heap.Store) (a0 : Heap.Addr)
    (t : Dict) (fails : List (List String))
    (hconf : Heap.confinedBelow σ0 σ0.length)
    (ha0 : a0 < σ0.length)
    (hreads : Heap.Reads σ0 a0 (.dict t)) :
    Heap.Reads (Heap.allocN σ0 (.dict t)).1 (Heap.allocN σ0 (.dict t)).2
      (.dict t) ∧
    (∀ b c, Heap.Reach (Heap.allocN σ0 (.dict t)).1 a0 b →
      Heap.Reach (Heap.allocN σ0 (.dict t)).1 (Heap.allocN σ0 (.dict t)).2 c →
      b ≠ c) ∧
    (∀ σ2, Heap.happly_fails (Heap.allocN σ0 (.dict t)).1
        (Heap.allocN σ0 (.dict t)).2 fails = .ok σ2 →
      Heap.Reads σ2 a0 (.dict t)) := by
  obtain ⟨hpre, ha1, hreads1, hclX⟩ := Heap.allocN_spec (.dict t) σ0
  have hagree01 : ∀ i, i < σ0.length →
      (Heap.allocN σ0 (.dict t)).1[i]? = σ0[i]? :=
    fun i hi => Heap.getElem?_of_extension hpre hi
  have hconf1 : Heap.confinedBelow (Heap.allocN σ0 (.dict t)).1 σ0.length :=
    Heap.confinedBelow_of_agree hagree01 hconf
  have hcl1 : Heap.closedAbove (Heap.allocN σ0 (.dict t)).1 σ0.length :=
    hclX σ0.length (le_refl _) (Heap.closedAbove_length σ0)
  refine ⟨hreads1, ?_, ?_⟩
  · intro b c hb hc
    have hbn := Heap.Reach.lt_of_confined hconf1 ha0 hb
    have hcn := Heap.Reach.ge_of_closed hcl1 ha1 hc
    exact fun he => absurd (he ▸ hbn) (not_lt.mpr hcn)
  · intro σ2 h2
    obtain ⟨hag2, -, -⟩ := Heap.happly_fails_frame fails _ _ σ0.length σ2
      hcl1 ha1 hpre.length_le h2
    exact Heap.Reads.store_agree
      (fun i hi => (hag2 i hi).trans (hagree01 i hi)) hconf ha0 hreads

/-- witness for C9 at a concrete input: a two-object store holding the tree
with the single passing leaf `A`, copied and mutated with the failure
listing `[A]`. -/
theorem deepcopy_isolates_canonical_witness :
    Heap.Reads
      (Heap.allocN [.leaf true, .dict [("A", 0)]]
        (.dict (.cons "A" (.leaf true) .nil))).1
      (Heap.allocN [.leaf true, .dict [("A", 0)]]
        (.dict (.cons "A" (.leaf true) .nil))).2
      (.dict (.cons "A" (.leaf true) .nil)) ∧
    (∀ b c, Heap.Reach
        (Heap.allocN [.leaf true, .dict [("A", 0)]]
          (.dict (.cons "A" (.leaf true) .nil))).1 1 b →
      Heap.Reach
        (Heap.allocN [.leaf true, .dict [("A", 0)]]
          (.dict (.cons "A" (.leaf true) .nil))).1
        (Heap.allocN [.leaf true, .dict [("A", 0)]]
          (.dict (.cons "A" (.leaf true) .nil))).2 c →
      b ≠ c) ∧
    (∀ σ2, Heap.happly_fails
        (Heap.allocN [.leaf true, .dict [("A", 0)]]
          (.dict (.cons "A" (.leaf true) .nil))).1
        (Heap.allocN [.leaf true, .dict [("A", 0)]]
          (.dict (.cons "A" (.leaf true) .nil))).2 [["A"]] = .ok σ2 →
      Heap.Reads σ2 1 (.dict (.cons "A" (.leaf true) .nil))) :=
  deepcopy_isolates_canonical [.leaf true, .dict [("A", 0)]] 1
    (.cons "A" (.leaf true) .nil) [["A"]]
    (by
      intro i es hi hget p hp
      simp only [List.length_cons, List.length_nil] at hi
      interval_cases i
      · simp at hget
      · simp at hget
        subst hget
        rcases List.mem_singleton.mp hp with rfl
        norm_num)
    (by norm_num)
    (.dict rfl (.cons (.leaf rfl) .nil))

/-- witness for C8 at concrete inputs: a negative and an oversized percentage
clamp to the endpoint colors, and one interior point of each segment takes the
interpolated value. -/
theorem bar_color_clamped_piecewise_continuous_witness :
    ConformanceReport._bar_color (-7) = ConformanceReport._bar_color 0 ∧
    ConformanceReport._bar_color 123 = ConformanceReport._bar_color 100 ∧
    ConformanceReport._bar_color 30 =
      (ConformanceReport.pyInt (ConformanceReport._lerp 180 200 (30 / 60)),
       ConformanceReport.pyInt (ConformanceReport._lerp 60 140 (30 / 60)),
       ConformanceReport.pyInt (ConformanceReport._lerp 55 55 (30 / 60))) ∧
    ConformanceReport._bar_color 80 =
      (ConformanceReport.pyInt (ConformanceReport._lerp 200 68 ((80 - 60) / 40)),
       ConformanceReport.pyInt (ConformanceReport._lerp 140 148 ((80 - 60) / 40)),
       ConformanceReport.pyInt (ConformanceReport._lerp 55 68 ((80 - 60) / 40))) :=
  ⟨(bar_color_clamped_piecewise_continuous (-7)).1 (by norm_num),
   (bar_color_clamped_piecewise_continuous 123).2.1 (by norm_num),
   (bar_color_clamped_piecewise_continuous 30).2.2.1 (by norm_num) (by norm_num),
   (bar_color_clamped_piecewise_continuous 80).2.2.2.1 (by norm_num) (by norm_num)⟩

end UpbZig
